import Mathlib

/-!
Verification of the GhostDB SQL dump anonymizer core
(src/transformer.rs and the processing routine of src/main.rs).

Strings from the Rust side are modelled as Lean strings; the char level
work (lexing, splitting, masking) is done on the underlying char lists.
Rust byte slicing is modelled faithfully: a slice whose end falls inside a
multi byte character, or whose start exceeds its end, is a panic, and every
function that can reach such a slice returns an Option, with none for the
panic.  The external fake and rand crates and the standard hasher are pure
deterministic functions of the derived seed; they enter the model as an
explicit environment of deterministic functions.
-/

namespace GhostDB

/-- White space test matching the Unicode White_Space property, the set used
both by the Rust regex white space class and by the trim method of str. -/
def isWs (c : Char) : Bool :=
  decide (c.toNat = 9 ∨ c.toNat = 10 ∨ c.toNat = 11 ∨ c.toNat = 12 ∨ c.toNat = 13 ∨
    c.toNat = 32 ∨ c.toNat = 133 ∨ c.toNat = 160 ∨ c.toNat = 5760 ∨
    (8192 ≤ c.toNat ∧ c.toNat ≤ 8202) ∨ c.toNat = 8232 ∨ c.toNat = 8233 ∨
    c.toNat = 8239 ∨ c.toNat = 8287 ∨ c.toNat = 12288)

/-- The single quote character, written by code point to keep the source free
of quote literals. -/
def squoteChar : Char := Char.ofNat 39

/-- The single quote as a one character string. -/
def squote : String := String.mk [squoteChar]

/-- Trim white space from both ends of a char list, modelling str::trim. -/
def trimList (cs : List Char) : List Char :=
  ((cs.dropWhile isWs).reverse.dropWhile isWs).reverse

/-- Trim of a string, modelling str::trim with the Rust white space set. -/
def rustTrim (s : String) : String := String.mk (trimList s.toList)

/-- Strip every leading and trailing double quote, modelling
trim_matches of the double quote character. -/
def trimDq (cs : List Char) : List Char :=
  ((cs.dropWhile (fun c => c = '"')).reverse.dropWhile (fun c => c = '"')).reverse

/-- Membership of a character, modelling str::contains of a char pattern. -/
def hasChar (cs : List Char) (a : Char) : Bool :=
  cs.any (fun c => c = a)

/-- Split a char list at every occurrence of a separator character,
modelling str::split of a char: the empty list splits to one empty piece,
and a trailing separator yields a trailing empty piece. -/
def splitChar (sep : Char) : List Char → List (List Char)
  | [] => [[]]
  | c :: rest =>
    if c = sep then [] :: splitChar sep rest
    else
      match splitChar sep rest with
      | [] => [[c]]
      | h :: t => (c :: h) :: t

/-- UTF-8 byte length of a char list, modelling str::len. -/
def byteLen : List Char → Nat
  | [] => 0
  | c :: cs => c.utf8Size + byteLen cs

/-- The one byte slice s[0..1] of Rust: defined when the first character is a
single byte character, a panic (none) when the slice end falls inside a
multi byte character or the text is empty. -/
def firstByte : List Char → Option (List Char)
  | [] => none
  | c :: _ => if c.utf8Size = 1 then some [c] else none

/-- The closed strategy set of src/config.rs. -/
inductive ColumnStrategy where
  | FirstName
  | LastName
  | FullName
  | Email
  | Phone
  | Mask
  | Fixed (s : String)
  | Keep
deriving DecidableEq

/-- Per column strategy map of one table, from src/config.rs. -/
structure TableConfig where
  columns : List (String × ColumnStrategy)
deriving DecidableEq

/-- Per table configuration map, from src/config.rs. -/
structure AppConfig where
  tables : List (String × TableConfig)
deriving DecidableEq

/-- First match lookup in an association list, modelling HashMap::get under
the unique key invariant of a hash map. -/
def assocFind {α : Type} (m : List (String × α)) (k : String) : Option α :=
  (m.find? (fun p => p.1 == k)).map (fun p => p.2)

/-- Deterministic stand ins for the external crates: the fake value
generators and the standard hasher are pure functions of the derived seed,
which is the documented behaviour of a seeded generator.  Every theorem
below holds for every such environment. -/
structure FakerEnv where
  firstName : Nat → String
  lastName : Nat → String
  fullName : Nat → String
  email : Nat → String
  phone : Nat → String
  hash : Nat → String → Nat

/-- The transformer state of src/transformer.rs: just the global seed. -/
structure Transformer where
  global_seed : Nat

/-- The three stars used by the mask strategy. -/
def stars : List Char := ['*', '*', '*']

/-- The fixed placeholder for mask inputs with several at signs. -/
def unknownMask : List Char := "***@unknown.com".toList

/-- Mask core of Transformer::transform on the unquoted value: at sign
handling, byte length thresholds and the first byte slice, exactly as in
the Mask arm of the source match. -/
def maskCore (clean : List Char) : Option (List Char) :=
  if hasChar clean '@' then
    match splitChar '@' clean with
    | [name, domain] =>
      if 1 < byteLen name then
        (firstByte name).map (fun fb => fb ++ stars ++ '@' :: domain)
      else some (stars ++ '@' :: domain)
    | _ => some unknownMask
  else
    if 1 < byteLen clean then (firstByte clean).map (fun fb => fb ++ stars)
    else some ['*']

/-- Does the char list start with a single quote, modelling
starts_with of the quote character. -/
def startsQ (cs : List Char) : Bool := cs.head? = some squoteChar

/-- Does the char list end with a single quote, modelling
ends_with of the quote character. -/
def endsQ (cs : List Char) : Bool := cs.getLast? = some squoteChar

/-- Re-wrap in quotes when the original token was quoted. -/
def wrapQuote (q : Bool) (out : List Char) : List Char :=
  if q then squoteChar :: (out ++ [squoteChar]) else out

/-- Transformer::transform on the char list of the value.  The slice
value[1..len - 1] of the source is valid exactly when the quoted value has
at least two characters; on the one character quote string it is a panic,
modelled as none.  The derived seed combines the global seed and the clean
value through the environment hasher, as the source does with the standard
hasher. -/
def transformList (env : FakerEnv) (seed : Nat) (vs : List Char)
    (strategy : ColumnStrategy) : Option (List Char) :=
  let q := startsQ vs && endsQ vs
  match (if q then (if 2 ≤ vs.length then some ((vs.drop 1).dropLast) else none)
         else some vs) with
  | none => none
  | some clean =>
    let seed2 := env.hash seed (String.mk clean)
    match strategy with
    | ColumnStrategy.FirstName => some (wrapQuote q (env.firstName seed2).toList)
    | ColumnStrategy.LastName => some (wrapQuote q (env.lastName seed2).toList)
    | ColumnStrategy.FullName => some (wrapQuote q (env.fullName seed2).toList)
    | ColumnStrategy.Email => some (wrapQuote q (env.email seed2).toList)
    | ColumnStrategy.Phone => some (wrapQuote q (env.phone seed2).toList)
    | ColumnStrategy.Mask => (maskCore clean).map (wrapQuote q)
    | ColumnStrategy.Fixed s => some (wrapQuote q s.toList)
    | ColumnStrategy.Keep => some vs

/-- Transformer::transform of src/transformer.rs, with none for the panics
of the source byte slices. -/
def Transformer.transform (t : Transformer) (env : FakerEnv) (value : String)
    (strategy : ColumnStrategy) : Option String :=
  (transformList env t.global_seed value.toList strategy).map String.mk

/-- The raw, unwrapped substitute the generator produces for an unquoted
value, one case per strategy of the source match with no quote re-wrapping
applied: the seeded faker draws, the mask of the value, the Fixed payload
verbatim, and the original token itself for Keep. -/
def rawSubstitute (env : FakerEnv) (seed : Nat) (v : String)
    (s : ColumnStrategy) : Option String :=
  let seed2 := env.hash seed v
  match s with
  | ColumnStrategy.FirstName => some (env.firstName seed2)
  | ColumnStrategy.LastName => some (env.lastName seed2)
  | ColumnStrategy.FullName => some (env.fullName seed2)
  | ColumnStrategy.Email => some (env.email seed2)
  | ColumnStrategy.Phone => some (env.phone seed2)
  | ColumnStrategy.Mask => (maskCore v.toList).map String.mk
  | ColumnStrategy.Fixed t => some t
  | ColumnStrategy.Keep => some v

/-- The character loop of Transformer::parse_values: quote toggling,
backslash escapes, splitting at top level commas, each finished token
trimmed; at the end the current token is pushed when nonempty as raw text. -/
def parseValuesAux : List Char → Bool → Bool → List Char → List (List Char) →
    List (List Char)
  | [], _, _, cur, acc => if cur = [] then acc else acc ++ [trimList cur]
  | c :: cs, inq, esc, cur, acc =>
    if esc then parseValuesAux cs inq false (cur ++ [c]) acc
    else if c = squoteChar then parseValuesAux cs (!inq) esc (cur ++ [c]) acc
    else if c = '\\' then parseValuesAux cs inq true (cur ++ [c]) acc
    else if c = ',' ∧ inq = false then parseValuesAux cs inq esc [] (acc ++ [trimList cur])
    else parseValuesAux cs inq esc (cur ++ [c]) acc

/-- Transformer::parse_values of src/transformer.rs. -/
def Transformer.parse_values (s : String) : List String :=
  (parseValuesAux s.toList false false [] []).map String.mk

/-- The same scan as parseValuesAux, but stopping before the final push: it
returns the tokens emitted at separators together with the raw final
segment.  Used to state what happens to the final token. -/
def scanValues : List Char → Bool → Bool → List Char → List (List Char) →
    List (List Char) × List Char
  | [], _, _, cur, acc => (acc, cur)
  | c :: cs, inq, esc, cur, acc =>
    if esc then scanValues cs inq false (cur ++ [c]) acc
    else if c = squoteChar then scanValues cs (!inq) esc (cur ++ [c]) acc
    else if c = '\\' then scanValues cs inq true (cur ++ [c]) acc
    else if c = ',' ∧ inq = false then scanValues cs inq esc [] (acc ++ [trimList cur])
    else scanValues cs inq esc (cur ++ [c]) acc

/-- No newline test: the regex dot of the source matches any character but
the line feed. -/
def noNl (cs : List Char) : Bool := cs.all (fun c => c ≠ '\n')

/-- Case insensitive match of one pattern letter, per the simple case
folding the regex crate applies to the upper case keyword letters: the
letter itself, its lower case form, and for S also the long s. -/
def ciCharEq (p c : Char) : Bool :=
  c = p || c.toNat = p.toNat + 32 || (p = 'S' && c.toNat = 383)

/-- Case insensitive equality of a keyword with a piece of text. -/
def ciMatches : List Char → List Char → Bool
  | [], [] => true
  | p :: ps, c :: cs => ciCharEq p c && ciMatches ps cs
  | _, _ => false

/-- Consume a keyword case insensitively from the front of the text. -/
def ciConsume : List Char → List Char → Option (List Char)
  | [], cs => some cs
  | _ :: _, [] => none
  | p :: ps, c :: cs => if ciCharEq p c then ciConsume ps cs else none

/-- The INSERT keyword. -/
def kwINSERT : List Char := ['I', 'N', 'S', 'E', 'R', 'T']

/-- The second keyword of the statement head. -/
def kwSecond : List Char := ['I', 'N', 'T', 'O']

/-- The VALUES keyword. -/
def kwVALUES : List Char := ['V', 'A', 'L', 'U', 'E', 'S']

/-- Drop the maximal white space run, the deterministic reading of a greedy
white space star followed by a non white space requirement. -/
def skipWs (cs : List Char) : List Char := cs.dropWhile isWs

/-- One or more white space characters followed by the rest: the
deterministic reading of a greedy white space plus followed by a non white
space requirement. -/
def ws1 (cs : List Char) : Option (List Char) :=
  match cs with
  | [] => none
  | c :: rest => if isWs c then some (skipWs rest) else none

/-- One candidate for the greedy value group: the value text is the first i
characters, which must be newline free, and must be followed by a closing
parenthesis and a semicolon.  Nothing is required after the semicolon: the
source regex has no end anchor. -/
def matchTailAt (ds : List Char) (i : Nat) : Option (List Char) :=
  if noNl (ds.take i) = true ∧ (ds.drop i).take 2 = [')', ';'] then
    some (ds.take i)
  else none

/-- The greedy value group: candidates are tried longest first, as a greedy
dot star backtracks. -/
def matchTail (ds : List Char) : Option (List Char) :=
  ((List.range (ds.length + 1)).reverse).findSome? (matchTailAt ds)

/-- One candidate for the lazy column group ending at offset j: the column
text is the first j characters, newline free, followed by a closing
parenthesis, optional white space, the VALUES keyword, optional white
space, an opening parenthesis and the value tail. -/
def matchValsAt (cs : List Char) (j : Nat) : Option (List Char × List Char) :=
  if noNl (cs.take j) = true then
    match cs.drop j with
    | [] => none
    | c :: rest1 =>
      if c = ')' then
        match ciConsume kwVALUES (skipWs rest1) with
        | none => none
        | some rest2 =>
          match skipWs rest2 with
          | [] => none
          | d :: rest3 =>
            if d = '(' then
              match matchTail rest3 with
              | none => none
              | some g3 => some (cs.take j, g3)
            else none
      else none
  else none

/-- The lazy column group with what follows it: candidates are tried
shortest first, as a lazy dot star extends only on failure. -/
def matchVals (cs : List Char) : Option (List Char × List Char) :=
  (List.range (cs.length + 1)).findSome? (matchValsAt cs)

/-- One candidate split of the table name group: the table name is the
first k characters of the maximal non white space run, followed by optional
white space, an opening parenthesis, and the column and value groups. -/
def matchAfterTable (cs4 run : List Char) (k : Nat) :
    Option (String × String × String) :=
  match skipWs (cs4.drop k) with
  | [] => none
  | c :: rest =>
    if c = '(' then
      match matchVals rest with
      | none => none
      | some (g2, g3) => some (String.mk (run.take k), String.mk g2, String.mk g3)
    else none

/-- The anchored insert statement matcher of run_processing, modelling the
capture semantics of the source regex: keywords matched case
insensitively, the table name a greedy non white space run tried longest
first, the column group lazy, the value group greedy, and no requirement
after the final semicolon. -/
def matchInsert (line : String) : Option (String × String × String) :=
  match ciConsume kwINSERT line.toList with
  | none => none
  | some cs1 =>
    match ws1 cs1 with
    | none => none
    | some cs2 =>
      match ciConsume kwSecond cs2 with
      | none => none
      | some cs3 =>
        match ws1 cs3 with
        | none => none
        | some cs4 =>
          let run := cs4.takeWhile (fun c => !isWs c)
          ((List.range run.length).map (fun i => i + 1)).reverse.findSome?
            (matchAfterTable cs4 run)

/-- Column list split of run_processing: split at commas, trim white space,
strip surrounding double quotes. -/
def parseColumns (colsPart : String) : List String :=
  (splitChar ',' colsPart.toList).map (fun cs => String.mk (trimDq (trimList cs)))

/-- The last dot separated segment of a table name, modelling
split at the dot followed by last on the split iterator. -/
def lastSegment (s : String) : Option String :=
  ((splitChar '.' s.toList).map String.mk).getLast?

/-- The two tier table key resolution of run_processing: the full name
first, then the last dot separated segment. -/
def resolveTableKey (cfg : AppConfig) (t : String) : Option String :=
  if (assocFind cfg.tables t).isSome then some t
  else
    match lastSegment t with
    | none => none
    | some name => if (assocFind cfg.tables name).isSome then some name else none

/-- The strategy resolved for one column of a table: the configured entry,
a default of Keep when absent. -/
def strategyFor (tc : TableConfig) (c : String) : ColumnStrategy :=
  (assocFind tc.columns c).getD ColumnStrategy.Keep

/-- Effectful map over a list with an Option producing function, modelling
the value loop of run_processing, which stops the program when a transform
panics. -/
def optMapM {α β : Type} (f : α → Option β) : List α → Option (List β)
  | [] => some []
  | a :: as =>
    match f a with
    | none => none
    | some b =>
      match optMapM f as with
      | none => none
      | some bs => some (b :: bs)

/-- The substitute list of one aligned statement: each value transformed
under the strategy resolved for its column. -/
def substitutes (env : FakerEnv) (t : Transformer) (tc : TableConfig)
    (cols vals : List String) : Option (List String) :=
  optMapM (fun p => t.transform env p.2 (strategyFor tc p.1)) (cols.zip vals)

/-- The reassembly head of the output line. -/
def insFront : String := "INSERT INTO "

/-- The text between the table name and the column list. -/
def parOpen : String := " ("

/-- The text between the column list and the value list. -/
def valsOpen : String := ") VALUES ("

/-- The closing text of the output line. -/
def parClose : String := ");"

/-- The separator joining the substitutes. -/
def comsp : String := ", "

/-- The per line step of run_processing in src/main.rs: match the line,
resolve the table, align columns with values, transform and reassemble.
The Bool records whether the anonymized counter is incremented; none models
a panic aborting the run. -/
def process_line (env : FakerEnv) (t : Transformer) (cfg : AppConfig)
    (line : String) : Option (String × Bool) :=
  match matchInsert line with
  | none => some (line, false)
  | some (tableFull, colsPart, valsPart) =>
    match resolveTableKey cfg tableFull with
    | none => some (line, false)
    | some key =>
      match assocFind cfg.tables key with
      | none => some (line, false)
      | some tableConfig =>
        let columns := parseColumns colsPart
        let values := Transformer.parse_values valsPart
        if columns.length ≠ values.length then some (line, false)
        else
          match substitutes env t tableConfig columns values with
          | none => none
          | some newValues =>
            some (insFront ++ tableFull ++ parOpen ++ colsPart ++ valsOpen ++
              String.intercalate comsp newValues ++ parClose, true)

/-- The line loop of run_processing: output lines in order, the processed
line count, and the anonymized statement count. -/
def run_processing (env : FakerEnv) (t : Transformer) (cfg : AppConfig) :
    List String → Option (List String × Nat × Nat)
  | [] => some ([], 0, 0)
  | l :: ls =>
    match process_line env t cfg l with
    | none => none
    | some (out, flag) =>
      match run_processing env t cfg ls with
      | none => none
      | some (outs, p, a) =>
        some (out :: outs, p + 1, a + (if flag then 1 else 0))

/-- A concrete environment used to instantiate the abstract generators in
closed examples. -/
def testEnv : FakerEnv where
  firstName := fun n => Nat.repr n
  lastName := fun n => Nat.repr (n + 1)
  fullName := fun n => Nat.repr (n + 2)
  email := fun n => Nat.repr (n + 3)
  phone := fun n => Nat.repr (n + 4)
  hash := fun k s => k + s.toList.foldl (fun a c => a * 257 + c.toNat) 0

/-- The characterization of a matched line, written from the specification
of the statement matcher: the line starts with the two keywords, a non
white space table name, the parenthesized column fragment, the VALUES
keyword and the parenthesized value fragment closed by a semicolon, after
which arbitrary trailing text is permitted. -/
def insertShape (line tb cp vp : String) : Prop :=
  ∃ iw w1 nw w2 w3 w4 vw w5 rest : List Char,
    line.toList =
      iw ++ w1 ++ nw ++ w2 ++ tb.toList ++ w3 ++ ['('] ++ cp.toList ++ [')'] ++
        w4 ++ vw ++ w5 ++ ['('] ++ vp.toList ++ [')', ';'] ++ rest ∧
    ciMatches kwINSERT iw = true ∧
    w1 ≠ [] ∧ w1.all isWs = true ∧
    ciMatches kwSecond nw = true ∧
    w2 ≠ [] ∧ w2.all isWs = true ∧
    tb.toList ≠ [] ∧ tb.toList.all (fun c => !isWs c) = true ∧
    w3.all isWs = true ∧
    noNl cp.toList = true ∧
    w4.all isWs = true ∧
    ciMatches kwVALUES vw = true ∧
    w5.all isWs = true ∧
    noNl vp.toList = true

/-- An empty per column configuration. -/
def tcEmpty : TableConfig := ⟨[]⟩

/-- A configuration tracking the table named t with no column entries. -/
def cfgT : AppConfig := ⟨[("t", tcEmpty)]⟩

/-- A matched line with trailing text after the closing semicolon. -/
def lineTrail : String := "INSERT INTO t (a) VALUES (1); tail"

/-- The rewritten form of the trailing text line. -/
def lineTrailOut : String := "INSERT INTO t (a) VALUES (1);"

/-- A line with no insert shape. -/
def lineComment : String := "-- a comment"

/-- A tracked line with one column and two values. -/
def lineMismatch : String := "INSERT INTO t (a) VALUES (1, 2);"

/-- A tracked line in lower case keywords. -/
def lineLower : String := "insert into t (a) values (1);"

/-- A tracked line with extra white space inside the shape. -/
def lineSpaced : String := "INSERT  INTO t (a) VALUES ( 1 );"

/-- A matched line whose table resolves under neither tier. -/
def lineUntracked : String := "INSERT INTO x.y (a) VALUES (1);"

/-- Small concrete strings used in closed instances. -/
def strX : String := "x"

/-- The y payload of the quoted fixed counterexample. -/
def qy : String := squote ++ "y" ++ squote

/-- A value whose first character occupies two bytes. -/
def eAcute2 : String := "é2"

/-- An email shaped value whose local part starts with a two byte
character. -/
def eAcuteEmail : String := "é2@x.com"

/-- The quoted email of the mask scenario. -/
def bobEmailQ : String := squote ++ "bob@co.com" ++ squote

/-- The masked quoted email of the mask scenario. -/
def bobMaskedQ : String := squote ++ "b***@co.com" ++ squote

/-- The quoted street of the mask scenario. -/
def mainStreetQ : String := squote ++ "Main Street" ++ squote

/-- The masked quoted street of the mask scenario. -/
def mainStreetMaskedQ : String := squote ++ "M***" ++ squote

/-- The local part of the email example as chars. -/
def bobLocal : List Char := "bob".toList

/-- The domain part of the email example as chars. -/
def bobDomain : List Char := "co.com".toList

/-- A one space input for the value splitter. -/
def oneSpace : String := " "

/-- The empty value. -/
def emptyVal : String := ""

/-- The lone star produced by the mask strategy on short values. -/
def star1 : String := "*"

/-- The table name of the concrete configuration. -/
def tStr : String := "t"

/-- The single column fragment of the concrete lines. -/
def aStr : String := "a"

/-- The single value of the concrete lines. -/
def oneStr : String := "1"

/-- The value fragment of the mismatch line. -/
def v12Str : String := "1, 2"

/-- The padded value fragment of the spaced line. -/
def sp1sp : String := " 1 "

/-- The schema qualified table name of the untracked line. -/
def xyT : String := "x.y"

/-- The last segment of the untracked table name. -/
def xyLast : String := "y"

/-! ## Helper lemmas -/

theorem string_mk_toList (s : String) : String.mk s.toList = s := rfl

theorem findSomeExists {α β : Type} (f : α → Option β) :
    ∀ (l : List α) (b : β), l.findSome? f = some b → ∃ a, a ∈ l ∧ f a = some b := by
  intro l
  induction l with
  | nil => intro b h; simp [List.findSome?] at h
  | cons a as ih =>
    intro b h
    rw [List.findSome?] at h
    cases hfa : f a with
    | some b2 =>
      rw [hfa] at h
      simp at h
      exact ⟨a, List.mem_cons_self a as, by rw [hfa, h]⟩
    | none =>
      rw [hfa] at h
      simp at h
      obtain ⟨x, hx, hfx⟩ := ih b h
      exact ⟨x, List.mem_cons_of_mem a hx, hfx⟩

theorem optMapM_length {α β : Type} (f : α → Option β) :
    ∀ (l : List α) (r : List β), optMapM f l = some r → r.length = l.length := by
  intro l
  induction l with
  | nil => intro r h; simp [optMapM] at h; simp [← h]
  | cons a as ih =>
    intro r h
    rw [optMapM] at h
    cases hfa : f a with
    | none => rw [hfa] at h; cases h
    | some b =>
      rw [hfa] at h
      cases hrec : optMapM f as with
      | none => rw [hrec] at h; cases h
      | some bs =>
        rw [hrec] at h
        injection h with h
        rw [← h]
        simp [ih bs hrec]

theorem optMapM_get {α β : Type} (f : α → Option β) :
    ∀ (l : List α) (r : List β), optMapM f l = some r →
      ∀ (i : Nat) (h1 : i < l.length) (h2 : i < r.length),
        f (l.get ⟨i, h1⟩) = some (r.get ⟨i, h2⟩) := by
  intro l
  induction l with
  | nil => intro r h i h1; simp at h1
  | cons a as ih =>
    intro r h i h1 h2
    rw [optMapM] at h
    cases hfa : f a with
    | none => rw [hfa] at h; cases h
    | some b =>
      rw [hfa] at h
      cases hrec : optMapM f as with
      | none => rw [hrec] at h; cases h
      | some bs =>
        rw [hrec] at h
        injection h with h
        subst h
        cases i with
        | zero => simpa using hfa
        | succ n =>
          simp only [List.get_cons_succ]
          exact ih bs hrec n (Nat.lt_of_succ_lt_succ h1) (Nat.lt_of_succ_lt_succ h2)

theorem zipGet {α β : Type} :
    ∀ (l1 : List α) (l2 : List β) (i : Nat) (h1 : i < l1.length)
      (h2 : i < l2.length) (hz : i < (l1.zip l2).length),
      (l1.zip l2).get ⟨i, hz⟩ = (l1.get ⟨i, h1⟩, l2.get ⟨i, h2⟩) := by
  intro l1
  induction l1 with
  | nil => intro l2 i h1; simp at h1
  | cons a as ih =>
    intro l2 i h1 h2 hz
    cases l2 with
    | nil => simp at h2
    | cons b bs =>
      cases i with
      | zero => rfl
      | succ n =>
        simp only [List.zip_cons_cons, List.get_cons_succ]
        exact ih bs n (Nat.lt_of_succ_lt_succ h1) (Nat.lt_of_succ_lt_succ h2)
          (Nat.lt_of_succ_lt_succ hz)

theorem takeWhileAll {α : Type} (p : α → Bool) :
    ∀ (l : List α), (l.takeWhile p).all p = true := by
  intro l
  induction l with
  | nil => rfl
  | cons a as ih =>
    rw [List.takeWhile]
    cases hp : p a with
    | true => simp [hp, ih]
    | false => rfl

theorem allTake {α : Type} (p : α → Bool) :
    ∀ (l : List α) (k : Nat), l.all p = true → (l.take k).all p = true := by
  intro l
  induction l with
  | nil => intro k _; simp
  | cons a as ih =>
    intro k h
    cases k with
    | zero => rfl
    | succ n =>
      simp only [List.all_cons, Bool.and_eq_true] at h
      simp [List.take, List.all_cons, h.1, ih n h.2]

theorem takeOfTakeWhile {α : Type} (p : α → Bool) :
    ∀ (l : List α) (k : Nat), k ≤ (l.takeWhile p).length →
      l.take k = (l.takeWhile p).take k := by
  intro l
  induction l with
  | nil => intro k h; simp
  | cons a as ih =>
    intro k h
    rw [List.takeWhile] at h ⊢
    cases hp : p a with
    | false =>
      rw [hp] at h
      simp at h
      subst h
      simp
    | true =>
      rw [hp] at h
      cases k with
      | zero => simp
      | succ n =>
        simp only [List.take_succ_cons]
        rw [ih n (Nat.le_of_succ_le_succ (by simpa using h))]

theorem skipWsSplit (cs : List Char) :
    ∃ w, cs = w ++ skipWs cs ∧ w.all isWs = true :=
  ⟨cs.takeWhile isWs, (List.takeWhile_append_dropWhile isWs cs).symm, takeWhileAll isWs cs⟩

theorem ws1Split (cs cs2 : List Char) (h : ws1 cs = some cs2) :
    ∃ w, cs = w ++ cs2 ∧ w ≠ [] ∧ w.all isWs = true := by
  cases cs with
  | nil => simp [ws1] at h
  | cons c rest =>
    rw [ws1] at h
    by_cases hc : isWs c = true
    · rw [if_pos hc] at h
      injection h with h
      subst h
      refine ⟨c :: rest.takeWhile isWs, ?_, by simp, ?_⟩
      · rw [List.cons_append]
        congr 1
        exact (List.takeWhile_append_dropWhile isWs rest).symm
      · simp [List.all_cons, hc, takeWhileAll isWs rest]
    · rw [if_neg hc] at h
      cases h

theorem ciConsumeSplit :
    ∀ (ps cs cs2 : List Char), ciConsume ps cs = some cs2 →
      ∃ pre, cs = pre ++ cs2 ∧ ciMatches ps pre = true := by
  intro ps
  induction ps with
  | nil =>
    intro cs cs2 h
    rw [ciConsume] at h
    injection h with h
    exact ⟨[], by simp [h], rfl⟩
  | cons p ps ih =>
    intro cs cs2 h
    cases cs with
    | nil => rw [ciConsume] at h; cases h
    | cons c cs3 =>
      rw [ciConsume] at h
      by_cases hc : ciCharEq p c = true
      · rw [if_pos hc] at h
        obtain ⟨pre, hpre, hm⟩ := ih cs3 cs2 h
        exact ⟨c :: pre, by simp [hpre], by simp [ciMatches, hc, hm]⟩
      · rw [if_neg hc] at h
        cases h

theorem hasCharAppend (a : Char) :
    ∀ (l1 l2 : List Char), hasChar (l1 ++ l2) a = (hasChar l1 a || hasChar l2 a) := by
  intro l1 l2
  simp [hasChar]

theorem hasCharConsSelf (a : Char) (l : List Char) : hasChar (a :: l) a = true := by
  simp [hasChar]

theorem splitCharNeNil (sep : Char) : ∀ (cs : List Char), splitChar sep cs ≠ [] := by
  intro cs
  cases cs with
  | nil => simp [splitChar]
  | cons c rest =>
    rw [splitChar]
    by_cases hc : c = sep
    · simp [hc]
    · rw [if_neg hc]
      cases hrec : splitChar sep rest with
      | nil => simp
      | cons h t => simp

theorem splitCharNoSep (sep : Char) :
    ∀ (cs : List Char), hasChar cs sep = false → splitChar sep cs = [cs] := by
  intro cs
  induction cs with
  | nil => intro _; rfl
  | cons c rest ih =>
    intro h
    simp only [hasChar, List.any_cons, Bool.or_eq_false_iff,
      decide_eq_false_iff_not] at h
    rw [splitChar, if_neg h.1]
    rw [ih (by simp [hasChar, h.2])]

theorem splitCharAppend (sep : Char) :
    ∀ (name rest : List Char), hasChar name sep = false →
      splitChar sep (name ++ sep :: rest) = name :: splitChar sep rest := by
  intro name
  induction name with
  | nil => intro rest _; simp [splitChar]
  | cons c nm ih =>
    intro rest h
    simp only [hasChar, List.any_cons, Bool.or_eq_false_iff,
      decide_eq_false_iff_not] at h
    rw [List.cons_append, splitChar, if_neg h.1]
    rw [ih rest (by simp [hasChar, h.2])]

theorem splitCharLenTwo (sep : Char) :
    ∀ (cs : List Char), hasChar cs sep = true → 2 ≤ (splitChar sep cs).length := by
  intro cs
  induction cs with
  | nil => intro h; simp [hasChar] at h
  | cons c rest ih =>
    intro h
    rw [splitChar]
    by_cases hc : c = sep
    · rw [if_pos hc]
      have := splitCharNeNil sep rest
      cases hrec : splitChar sep rest with
      | nil => exact absurd hrec this
      | cons a t => simp
    · rw [if_neg hc]
      simp only [hasChar, List.any_cons, Bool.or_eq_true,
        decide_eq_true_eq] at h
      rcases h with h | h
      · exact absurd h hc
      · have h2 := ih (by simpa [hasChar] using h)
        cases hrec : splitChar sep rest with
        | nil => exact absurd hrec (splitCharNeNil sep rest)
        | cons a t =>
          rw [hrec] at h2
          simpa using h2

theorem boolNotTrue {b : Bool} (h : ¬ b = true) : b = false := by
  cases b
  · rfl
  · exact absurd rfl h

theorem transformKeep (env : FakerEnv) (t : Transformer) (v : String)
    (hv : v ≠ squote) : t.transform env v ColumnStrategy.Keep = some v := by
  by_cases hq : (startsQ v.toList && endsQ v.toList) = true
  · have hlen : 2 ≤ v.toList.length := by
      rcases hl : v.toList with _ | ⟨c, cs⟩
      · rw [hl] at hq
        simp [startsQ, endsQ] at hq
      · rcases cs with _ | ⟨d, rest⟩
        · rw [hl] at hq
          simp only [startsQ, endsQ, List.head?, List.getLast?,
            Bool.and_eq_true, decide_eq_true_eq, Option.some.injEq] at hq
          exact absurd (by rw [← string_mk_toList v, hl, hq.1]; rfl) hv
        · simp
    simp only [Transformer.transform, transformList, hq, if_true, if_pos hlen]
    exact congrArg some (string_mk_toList v)
  · have hq2 := boolNotTrue hq
    simp only [Transformer.transform, transformList, hq2, Bool.false_eq_true,
      if_false]
    exact congrArg some (string_mk_toList v)

theorem endsQWrap (x : List Char) :
    endsQ (squoteChar :: (x ++ [squoteChar])) = true := by
  have h : (squoteChar :: (x ++ [squoteChar])).getLast? = some squoteChar := by
    rw [show squoteChar :: (x ++ [squoteChar]) = (squoteChar :: x) ++ [squoteChar]
      from rfl]
    exact List.getLast?_concat (squoteChar :: x)
  simp [endsQ, h]

theorem transformQuotedWrapped (env : FakerEnv) (t : Transformer) (v : String)
    (s : ColumnStrategy) (out : String) (hs : s ≠ ColumnStrategy.Keep)
    (hq : (startsQ v.toList && endsQ v.toList) = true)
    (h : t.transform env v s = some out) :
    startsQ out.toList = true ∧ endsQ out.toList = true := by
  simp only [Transformer.transform, transformList, hq, if_true] at h
  by_cases hlen : 2 ≤ v.toList.length
  · rw [if_pos hlen] at h
    have key : ∃ x, out.toList = squoteChar :: (x ++ [squoteChar]) := by
      cases s with
      | FirstName =>
        simp only [Option.map_some', Option.some.injEq] at h
        exact ⟨_, by rw [← h]; rfl⟩
      | LastName =>
        simp only [Option.map_some', Option.some.injEq] at h
        exact ⟨_, by rw [← h]; rfl⟩
      | FullName =>
        simp only [Option.map_some', Option.some.injEq] at h
        exact ⟨_, by rw [← h]; rfl⟩
      | Email =>
        simp only [Option.map_some', Option.some.injEq] at h
        exact ⟨_, by rw [← h]; rfl⟩
      | Phone =>
        simp only [Option.map_some', Option.some.injEq] at h
        exact ⟨_, by rw [← h]; rfl⟩
      | Mask =>
        simp only [] at h
        cases hm : maskCore ((v.toList.drop 1).dropLast) with
        | none => rw [hm] at h; simp at h
        | some m =>
          rw [hm] at h
          simp only [Option.map_some', Option.some.injEq] at h
          exact ⟨m, by rw [← h]; rfl⟩
      | Fixed txt =>
        simp only [Option.map_some', Option.some.injEq] at h
        exact ⟨_, by rw [← h]; rfl⟩
      | Keep => exact absurd rfl hs
    obtain ⟨x, hx⟩ := key
    rw [hx]
    exact ⟨rfl, endsQWrap x⟩
  · rw [if_neg hlen] at h
    simp at h

theorem transformUnquotedFixed (env : FakerEnv) (t : Transformer) (v txt : String)
    (hq : (startsQ v.toList && endsQ v.toList) = false) :
    t.transform env v (ColumnStrategy.Fixed txt) = some txt := by
  simp only [Transformer.transform, transformList, hq, Bool.false_eq_true, if_false,
    wrapQuote, Option.map_some']
  exact congrArg some (string_mk_toList txt)

theorem transformUnquotedMask (env : FakerEnv) (t : Transformer) (v : String)
    (hq : (startsQ v.toList && endsQ v.toList) = false) :
    t.transform env v ColumnStrategy.Mask = (maskCore v.toList).map String.mk := by
  simp only [Transformer.transform, transformList, hq, Bool.false_eq_true, if_false]
  cases h : maskCore v.toList with
  | none => rfl
  | some m => simp [wrapQuote]

theorem transformUnquotedFirstName (env : FakerEnv) (t : Transformer) (v : String)
    (hq : (startsQ v.toList && endsQ v.toList) = false) :
    t.transform env v ColumnStrategy.FirstName =
      some (env.firstName (env.hash t.global_seed v)) := by
  simp only [Transformer.transform, transformList, hq, Bool.false_eq_true, if_false,
    wrapQuote, Option.map_some', string_mk_toList]

theorem transformUnquotedRaw (env : FakerEnv) (t : Transformer) (v : String)
    (s : ColumnStrategy) (hq : (startsQ v.toList && endsQ v.toList) = false) :
    t.transform env v s = rawSubstitute env t.global_seed v s := by
  cases s with
  | FirstName =>
    simp only [Transformer.transform, transformList, hq, Bool.false_eq_true,
      if_false, wrapQuote, Option.map_some', string_mk_toList, rawSubstitute]
  | LastName =>
    simp only [Transformer.transform, transformList, hq, Bool.false_eq_true,
      if_false, wrapQuote, Option.map_some', string_mk_toList, rawSubstitute]
  | FullName =>
    simp only [Transformer.transform, transformList, hq, Bool.false_eq_true,
      if_false, wrapQuote, Option.map_some', string_mk_toList, rawSubstitute]
  | Email =>
    simp only [Transformer.transform, transformList, hq, Bool.false_eq_true,
      if_false, wrapQuote, Option.map_some', string_mk_toList, rawSubstitute]
  | Phone =>
    simp only [Transformer.transform, transformList, hq, Bool.false_eq_true,
      if_false, wrapQuote, Option.map_some', string_mk_toList, rawSubstitute]
  | Mask =>
    rw [show rawSubstitute env t.global_seed v ColumnStrategy.Mask =
      (maskCore v.toList).map String.mk from rfl]
    exact transformUnquotedMask env t v hq
  | Fixed txt =>
    rw [show rawSubstitute env t.global_seed v (ColumnStrategy.Fixed txt) =
      some txt from rfl]
    exact transformUnquotedFixed env t v txt hq
  | Keep =>
    have hv : v ≠ squote := by
      intro he
      rw [he] at hq
      exact absurd hq (by decide)
    rw [show rawSubstitute env t.global_seed v ColumnStrategy.Keep =
      some v from rfl]
    exact transformKeep env t v hv

theorem maskCoreOneAt (name domain : List Char)
    (hn : hasChar name '@' = false) (hd : hasChar domain '@' = false) :
    maskCore (name ++ '@' :: domain) =
      if 1 < byteLen name then
        (firstByte name).map (fun fb => fb ++ stars ++ '@' :: domain)
      else some (stars ++ '@' :: domain) := by
  have hc : hasChar (name ++ '@' :: domain) '@' = true := by
    rw [hasCharAppend]
    simp [hasCharConsSelf]
  rw [maskCore, if_pos hc, splitCharAppend _ _ _ hn, splitCharNoSep _ _ hd]

theorem maskCoreManyAt (pre rest2 : List Char)
    (hp : hasChar pre '@' = false) (hr : hasChar rest2 '@' = true) :
    maskCore (pre ++ '@' :: rest2) = some unknownMask := by
  have hc : hasChar (pre ++ '@' :: rest2) '@' = true := by
    rw [hasCharAppend]
    simp [hasCharConsSelf]
  rw [maskCore, if_pos hc, splitCharAppend _ _ _ hp]
  have h2 := splitCharLenTwo '@' rest2 hr
  rcases hsp : splitChar '@' rest2 with _ | ⟨a, _ | ⟨b, t⟩⟩
  · exact absurd hsp (splitCharNeNil '@' rest2)
  · rw [hsp] at h2
    simp at h2
  · rfl

theorem maskCoreNoAt (v : List Char) (h : hasChar v '@' = false) :
    maskCore v =
      if 1 < byteLen v then (firstByte v).map (fun fb => fb ++ stars)
      else some ['*'] := by
  rw [maskCore, if_neg (by simp [h])]

theorem matchTailSplit (ds g3 : List Char) (h : matchTail ds = some g3) :
    ∃ rest, ds = g3 ++ [')', ';'] ++ rest ∧ noNl g3 = true := by
  obtain ⟨i, _, hf⟩ := findSomeExists (matchTailAt ds) _ _ h
  rw [matchTailAt] at hf
  by_cases hcond : noNl (ds.take i) = true ∧ (ds.drop i).take 2 = [')', ';']
  · rw [if_pos hcond] at hf
    injection hf with hf
    subst hf
    refine ⟨(ds.drop i).drop 2, ?_, hcond.1⟩
    conv_lhs => rw [← List.take_append_drop i ds]
    rw [List.append_assoc]
    congr 1
    conv_lhs => rw [← List.take_append_drop 2 (ds.drop i)]
    rw [hcond.2]
  · rw [if_neg hcond] at hf
    cases hf

theorem matchValsSplit (cs g2 g3 : List Char) (h : matchVals cs = some (g2, g3)) :
    ∃ w4 vw w5 rest,
      cs = g2 ++ [')'] ++ w4 ++ vw ++ w5 ++ ['('] ++ g3 ++ [')', ';'] ++ rest ∧
        noNl g2 = true ∧ w4.all isWs = true ∧ ciMatches kwVALUES vw = true ∧
        w5.all isWs = true ∧ noNl g3 = true := by
  obtain ⟨j, _, hf⟩ := findSomeExists (matchValsAt cs) _ _ h
  rw [matchValsAt] at hf
  by_cases h1 : noNl (cs.take j) = true
  case neg => rw [if_neg h1] at hf; cases hf
  rw [if_pos h1] at hf
  cases hdrop : cs.drop j with
  | nil => rw [hdrop] at hf; cases hf
  | cons c rest1 =>
    rw [hdrop] at hf
    simp only [] at hf
    by_cases hc : c = ')'
    case neg => rw [if_neg hc] at hf; cases hf
    rw [if_pos hc] at hf
    cases hcons : ciConsume kwVALUES (skipWs rest1) with
    | none => rw [hcons] at hf; cases hf
    | some rest2 =>
      rw [hcons] at hf
      simp only [] at hf
      cases hskip : skipWs rest2 with
      | nil => rw [hskip] at hf; cases hf
      | cons d rest3 =>
        rw [hskip] at hf
        simp only [] at hf
        by_cases hd : d = '('
        case neg => rw [if_neg hd] at hf; cases hf
        rw [if_pos hd] at hf
        cases htail : matchTail rest3 with
        | none => rw [htail] at hf; cases hf
        | some g3x =>
          rw [htail] at hf
          simp only [Option.some.injEq, Prod.mk.injEq] at hf
          obtain ⟨hg2, hg3⟩ := hf
          subst hg2
          subst hg3
          obtain ⟨w4a, hw4a, hw4all⟩ := skipWsSplit rest1
          obtain ⟨vwx, hvw, hvm⟩ := ciConsumeSplit kwVALUES (skipWs rest1) rest2 hcons
          obtain ⟨w5a, hw5a, hw5all⟩ := skipWsSplit rest2
          obtain ⟨tailRest, htr, hnl3⟩ := matchTailSplit rest3 g3x htail
          refine ⟨w4a, vwx, w5a, tailRest, ?_, h1, hw4all, hvm, hw5all, hnl3⟩
          conv_lhs => rw [← List.take_append_drop j cs]
          rw [hdrop, hc, hw4a, hvw, hw5a, hskip, hd, htr]
          simp [List.append_assoc]

theorem memRangeSuccMap (k n : Nat)
    (h : k ∈ ((List.range n).map (fun i => i + 1)).reverse) :
    1 ≤ k ∧ k ≤ n := by
  rw [List.mem_reverse, List.mem_map] at h
  obtain ⟨i, hi, hk⟩ := h
  rw [List.mem_range] at hi
  omega

theorem matchAfterTableSplit (cs4 run : List Char) (k : Nat)
    (tb cp vp : String) (hrun : run = cs4.takeWhile (fun c => !isWs c))
    (_hk1 : 1 ≤ k) (hk2 : k ≤ run.length)
    (h : matchAfterTable cs4 run k = some (tb, cp, vp)) :
    ∃ w3 rest0,
      cs4 = tb.toList ++ w3 ++ ['('] ++ rest0 ∧
        tb.toList = run.take k ∧ w3.all isWs = true ∧
        matchVals rest0 = some (cp.toList, vp.toList) := by
  rw [matchAfterTable] at h
  cases hskip : skipWs (cs4.drop k) with
  | nil => rw [hskip] at h; cases h
  | cons c rest =>
    rw [hskip] at h
    simp only [] at h
    by_cases hc : c = '('
    case neg => rw [if_neg hc] at h; cases h
    rw [if_pos hc] at h
    cases hmv : matchVals rest with
    | none => rw [hmv] at h; cases h
    | some p =>
      rw [hmv] at h
      simp only [Option.some.injEq, Prod.mk.injEq] at h
      obtain ⟨htb, hcp, hvp⟩ := h
      obtain ⟨w3a, hw3a, hw3all⟩ := skipWsSplit (cs4.drop k)
      refine ⟨w3a, rest, ?_, by rw [← htb]; rfl, hw3all, ?_⟩
      · have htake : cs4.take k = run.take k := by
          rw [hrun]
          exact takeOfTakeWhile (fun c => !isWs c) cs4 k (by rw [← hrun]; exact hk2)
        conv_lhs => rw [← List.take_append_drop k cs4]
        rw [htake, hw3a, hskip, hc, ← htb]
        simp [List.append_assoc]
      · rw [hmv]
        rw [← hcp, ← hvp]
        cases p
        rfl

theorem matchInsertShape (line tb cp vp : String)
    (h : matchInsert line = some (tb, cp, vp)) : insertShape line tb cp vp := by
  rw [matchInsert] at h
  cases h1 : ciConsume kwINSERT line.toList with
  | none => rw [h1] at h; cases h
  | some cs1 =>
    rw [h1] at h
    simp only [] at h
    cases h2 : ws1 cs1 with
    | none => rw [h2] at h; cases h
    | some cs2 =>
      rw [h2] at h
      simp only [] at h
      cases h3 : ciConsume kwSecond cs2 with
      | none => rw [h3] at h; cases h
      | some cs3 =>
        rw [h3] at h
        simp only [] at h
        cases h4 : ws1 cs3 with
        | none => rw [h4] at h; cases h
        | some cs4 =>
          rw [h4] at h
          simp only [] at h
          obtain ⟨k, hkmem, hkf⟩ := findSomeExists _ _ _ h
          obtain ⟨hk1, hk2⟩ := memRangeSuccMap k _ hkmem
          obtain ⟨w3, rest0, hcs4, htbl, hw3all, hmv⟩ :=
            matchAfterTableSplit cs4 (cs4.takeWhile (fun c => !isWs c)) k tb cp vp
              rfl hk1 hk2 hkf
          obtain ⟨w4, vw, w5, rest, hrest0, hnl2, hw4, hvm, hw5, hnl3⟩ :=
            matchValsSplit rest0 cp.toList vp.toList hmv
          obtain ⟨iw, hiw, him⟩ := ciConsumeSplit kwINSERT line.toList cs1 h1
          obtain ⟨w1, hw1, hw1ne, hw1all⟩ := ws1Split cs1 cs2 h2
          obtain ⟨nw, hnw, hnm⟩ := ciConsumeSplit kwSecond cs2 cs3 h3
          obtain ⟨w2, hw2, hw2ne, hw2all⟩ := ws1Split cs3 cs4 h4
          refine ⟨iw, w1, nw, w2, w3, w4, vw, w5, rest, ?_, him, hw1ne, hw1all,
            hnm, hw2ne, hw2all, ?_, ?_, hw3all, hnl2, hw4, hvm, hw5, hnl3⟩
          · rw [hiw, hw1, hnw, hw2, hcs4, hrest0]
            simp [List.append_assoc]
          · rw [htbl]
            intro hemp
            have hlen := congrArg List.length hemp
            rw [List.length_take] at hlen
            simp only [List.length_nil] at hlen
            omega
          · rw [htbl]
            exact allTake (fun c => !isWs c) _ k
              (takeWhileAll (fun c => !isWs c) cs4)

/-! ## Claim theorems -/

/-- Claim C1: the value generator is deterministic and context independent:
transform is a function of the value, the strategy and the global seed
alone, so two transformers with equal seeds agree everywhere, and inside
one processed statement two positions holding the same literal under the
same resolved strategy receive the same substitute, independent of table,
column and position. -/
theorem c1_deterministic_context_independent (env : FakerEnv)
    (t1 t2 : Transformer) (hseed : t1.global_seed = t2.global_seed)
    (v : String) (s : ColumnStrategy) :
    t1.transform env v s = t2.transform env v s ∧
      ∀ (tc : TableConfig) (cols vals ns : List String),
        substitutes env t1 tc cols vals = some ns →
        ∀ (i j : Nat) (hic : i < cols.length) (hjc : j < cols.length)
          (hiv : i < vals.length) (hjv : j < vals.length)
          (hin : i < ns.length) (hjn : j < ns.length),
          vals.get ⟨i, hiv⟩ = vals.get ⟨j, hjv⟩ →
          strategyFor tc (cols.get ⟨i, hic⟩) = strategyFor tc (cols.get ⟨j, hjc⟩) →
          ns.get ⟨i, hin⟩ = ns.get ⟨j, hjn⟩ := by
  constructor
  · unfold Transformer.transform
    rw [hseed]
  · intro tc cols vals ns hsub i j hic hjc hiv hjv hin hjn hval hstrat
    have hzi : i < (cols.zip vals).length := by
      rw [List.length_zip]
      exact lt_min hic hiv
    have hzj : j < (cols.zip vals).length := by
      rw [List.length_zip]
      exact lt_min hjc hjv
    have hi := optMapM_get _ _ _ hsub i hzi hin
    have hj := optMapM_get _ _ _ hsub j hzj hjn
    rw [zipGet cols vals i hic hiv hzi] at hi
    rw [zipGet cols vals j hjc hjv hzj] at hj
    simp only at hi hj
    rw [hval, hstrat] at hi
    rw [hi] at hj
    injection hj

/-- Claim C1 witness: two transformers built from equal seed values agree on
a concrete masked value. -/
theorem c1_witness :
    Transformer.transform ⟨42⟩ testEnv strX ColumnStrategy.Mask =
      Transformer.transform ⟨41 + 1⟩ testEnv strX ColumnStrategy.Mask :=
  (c1_deterministic_context_independent testEnv ⟨42⟩ ⟨41 + 1⟩ (by decide)
    strX ColumnStrategy.Mask).1

/-- Claim C2: the generator is not total.  On the one character quote value
the source slice value[1..0] panics for every strategy, and on a value
whose kept first character is multi byte the Mask slice name[0..1] panics;
the empty value does degrade to the star placeholder. -/
theorem c2_transform_fallible :
    Transformer.transform ⟨42⟩ testEnv squote ColumnStrategy.Keep = none ∧
      Transformer.transform ⟨42⟩ testEnv eAcute2 ColumnStrategy.Mask = none ∧
      Transformer.transform ⟨42⟩ testEnv emptyVal ColumnStrategy.Mask = some star1 := by
  refine ⟨by decide, by decide, by decide⟩

/-- Claim C4 counterexample: on a one space input the final segment is
pushed because it is nonempty before trimming, producing a token that trims
to the empty string, which the claim forbids. -/
theorem c4_counterexample : Transformer.parse_values oneSpace = [emptyVal] := by
  decide

/-- Claim C4 amended: the final token after the last top level separator is
appended exactly when the raw final segment is nonempty before trimming,
and it is trimmed when appended; a white space only final segment therefore
yields an empty token. -/
theorem c4_final_token_raw_nonempty (s : String) :
    Transformer.parse_values s =
      ((scanValues s.toList false false [] []).1 ++
        (if (scanValues s.toList false false [] []).2 = [] then []
         else [trimList (scanValues s.toList false false [] []).2])).map String.mk := by
  have key : ∀ (cs : List Char) (inq esc : Bool) (cur : List Char)
      (acc : List (List Char)),
      parseValuesAux cs inq esc cur acc =
        (scanValues cs inq esc cur acc).1 ++
          (if (scanValues cs inq esc cur acc).2 = [] then []
           else [trimList (scanValues cs inq esc cur acc).2]) := by
    intro cs
    induction cs with
    | nil =>
      intro inq esc cur acc
      rw [parseValuesAux, scanValues]
      by_cases hc : cur = []
      · simp [hc]
      · simp [hc]
    | cons c rest ih =>
      intro inq esc cur acc
      cases esc with
      | true => exact ih inq false (cur ++ [c]) acc
      | false =>
        by_cases h2 : c = squoteChar
        · subst h2
          exact ih (!inq) false (cur ++ [squoteChar]) acc
        · rw [parseValuesAux, scanValues, if_neg h2, if_neg h2]
          by_cases h3 : c = '\\'
          · subst h3
            exact ih inq true (cur ++ ['\\']) acc
          · rw [if_neg h3, if_neg h3]
            by_cases h4 : c = ',' ∧ inq = false
            · obtain ⟨hc, hq⟩ := h4
              subst hc
              subst hq
              exact ih false false [] (acc ++ [trimList cur])
            · rw [if_neg h4, if_neg h4]
              exact ih inq false (cur ++ [c]) acc
  rw [Transformer.parse_values, key]

/-- Claim C6: the Keep branch would return every token unchanged, but the
clean value slice runs before it, so on the one character quote value even
Keep panics; on every other token Keep is the identity. -/
theorem c6_keep_identity (env : FakerEnv) (t : Transformer) (v : String)
    (hv : v ≠ squote) :
    t.transform env v ColumnStrategy.Keep = some v ∧
      Transformer.transform ⟨7⟩ testEnv squote ColumnStrategy.Keep = none := by
  exact ⟨transformKeep env t v hv, by decide⟩

/-- Claim C6 witness: Keep on a concrete unquoted token. -/
theorem c6_witness :
    Transformer.transform ⟨7⟩ testEnv strX ColumnStrategy.Keep = some strX :=
  (c6_keep_identity testEnv ⟨7⟩ strX (by decide)).1

/-- Claim C7 counterexample: an unquoted token under a Fixed strategy whose
payload is itself quote wrapped produces an output with surrounding single
quotes, which the claim forbids for unquoted tokens. -/
theorem c7_counterexample :
    Transformer.transform ⟨42⟩ testEnv strX (ColumnStrategy.Fixed qy) = some qy ∧
      startsQ qy.toList = true ∧ endsQ qy.toList = true := by
  refine ⟨by decide, by decide, by decide⟩

/-- Claim C7 amended: for quoted tokens and non Keep strategies every
returned output is quote wrapped; for unquoted tokens and every strategy
the generator adds no quotes, returning exactly the raw substitute of that
strategy, which carries surrounding quotes only when the substitute text
itself does, as a Fixed payload may. -/
theorem c7_quote_preservation :
    (∀ (env : FakerEnv) (t : Transformer) (v : String) (s : ColumnStrategy)
        (out : String), s ≠ ColumnStrategy.Keep →
        (startsQ v.toList && endsQ v.toList) = true →
        t.transform env v s = some out →
        startsQ out.toList = true ∧ endsQ out.toList = true) ∧
      ∀ (env : FakerEnv) (t : Transformer) (v : String) (s : ColumnStrategy),
        (startsQ v.toList && endsQ v.toList) = false →
        t.transform env v s = rawSubstitute env t.global_seed v s :=
  ⟨transformQuotedWrapped, transformUnquotedRaw⟩

/-- Claim C7 witness: the quoted masked email output is quote wrapped. -/
theorem c7_witness :
    startsQ bobMaskedQ.toList = true ∧ endsQ bobMaskedQ.toList = true :=
  c7_quote_preservation.1 testEnv ⟨42⟩ bobEmailQ ColumnStrategy.Mask bobMaskedQ
    (by decide) (by decide) (by decide)

/-- Claim C5 counterexample: an unquoted email shaped value with exactly one
at sign whose local part starts with a two byte character makes the first
byte slice panic; the claim instead requires the first character followed
by the stars and the domain. -/
theorem c5_counterexample :
    Transformer.transform ⟨42⟩ testEnv eAcuteEmail ColumnStrategy.Mask = none := by
  decide

/-- Claim C5 amended: mask semantics as claimed with lengths in bytes and
the first character taken as the first byte: with exactly one at sign the
local part keeps its first byte followed by the stars when its byte length
exceeds one (a panic when that first character is multi byte), or becomes
the bare stars otherwise, with the domain verbatim; with no at sign the
value keeps its first byte followed by the stars, or a lone star at byte
length at most one; with several at signs the fixed placeholder is
produced; and the two scenario examples hold. -/
theorem c5_mask_semantics :
    (∀ (name domain : List Char),
        hasChar name '@' = false → hasChar domain '@' = false →
        maskCore (name ++ '@' :: domain) =
          if 1 < byteLen name then
            (firstByte name).map (fun fb => fb ++ stars ++ '@' :: domain)
          else some (stars ++ '@' :: domain)) ∧
      (∀ (pre rest2 : List Char),
        hasChar pre '@' = false → hasChar rest2 '@' = true →
        maskCore (pre ++ '@' :: rest2) = some unknownMask) ∧
      (∀ (v : List Char), hasChar v '@' = false →
        maskCore v =
          if 1 < byteLen v then (firstByte v).map (fun fb => fb ++ stars)
          else some ['*']) ∧
      (∀ (env : FakerEnv) (t : Transformer) (v : String),
        (startsQ v.toList && endsQ v.toList) = false →
        t.transform env v ColumnStrategy.Mask = (maskCore v.toList).map String.mk) ∧
      Transformer.transform ⟨42⟩ testEnv bobEmailQ ColumnStrategy.Mask =
        some bobMaskedQ ∧
      Transformer.transform ⟨42⟩ testEnv mainStreetQ ColumnStrategy.Mask =
        some mainStreetMaskedQ :=
  ⟨maskCoreOneAt, maskCoreManyAt, maskCoreNoAt, transformUnquotedMask,
    by decide, by decide⟩

/-- Claim C5 witness: the single at sign rule applied to the concrete email
parts. -/
theorem c5_witness :
    maskCore (bobLocal ++ '@' :: bobDomain) =
      if 1 < byteLen bobLocal then
        (firstByte bobLocal).map (fun fb => fb ++ stars ++ '@' :: bobDomain)
      else some (stars ++ '@' :: bobDomain) :=
  c5_mask_semantics.1 bobLocal bobDomain (by decide) (by decide)

/-- Claim C3 counterexample: a line with trailing text after the closing
semicolon is recognized and rewritten, dropping the trailing text, because
the source regex has no end of line anchor; the claim requires the line to
end with the closing pair. -/
theorem c3_counterexample :
    process_line testEnv ⟨42⟩ cfgT lineTrail = some (lineTrailOut, true) ∧
      lineTrailOut ≠ lineTrail := by
  refine ⟨by decide, by decide⟩

/-- Claim C3 amended: a line is recognized only if it decomposes as the
insert shape, in which the closing parenthesis and semicolon must follow
the value list but need not end the line, trailing text being permitted and
dropped on rewrite; every line the matcher rejects is emitted byte
identical. -/
theorem c3_shape_and_passthrough :
    (∀ (env : FakerEnv) (t : Transformer) (cfg : AppConfig) (line : String),
        matchInsert line = none →
        process_line env t cfg line = some (line, false)) ∧
      ∀ (line tb cp vp : String),
        matchInsert line = some (tb, cp, vp) → insertShape line tb cp vp := by
  constructor
  · intro env t cfg line h
    rw [process_line, h]
  · exact matchInsertShape

/-- Claim C3 witness: a comment line passes through byte identical. -/
theorem c3_witness :
    process_line testEnv ⟨42⟩ cfgT lineComment = some (lineComment, false) :=
  c3_shape_and_passthrough.1 testEnv ⟨42⟩ cfgT lineComment (by decide)

/-- Claim C8: on a matched line of a tracked table whose parsed column
count differs from its parsed value count, the pipeline emits the line byte
identical, counts it as processed, and does not count it as anonymized. -/
theorem c8_mismatch_safety (env : FakerEnv) (t : Transformer) (cfg : AppConfig)
    (line tb cp vp key : String) (tc : TableConfig)
    (h1 : matchInsert line = some (tb, cp, vp))
    (h2 : resolveTableKey cfg tb = some key)
    (h3 : assocFind cfg.tables key = some tc)
    (h4 : (parseColumns cp).length ≠ (Transformer.parse_values vp).length) :
    run_processing env t cfg [line] = some ([line], 1, 0) := by
  rw [run_processing, process_line, h1]
  simp only []
  rw [h2]
  simp only []
  rw [h3]
  simp only [if_pos h4]
  rw [run_processing]
  simp

/-- Claim C8 witness: the concrete one column two value line is emitted
unchanged with the counters at one processed and zero anonymized. -/
theorem c8_witness :
    run_processing testEnv ⟨42⟩ cfgT [lineMismatch] = some ([lineMismatch], 1, 0) :=
  c8_mismatch_safety testEnv ⟨42⟩ cfgT lineMismatch tStr aStr v12Str tStr tcEmpty
    (by decide) (by decide) (by decide) (by decide)

/-- Claim C9: table resolution on a matched line tries the full name
first, then the last dot separated segment, and when neither key is
configured the statement is emitted byte identical and not anonymized. -/
theorem c9_two_tier_resolution (env : FakerEnv) (t : Transformer)
    (cfg : AppConfig) (line tb cp vp : String)
    (h : matchInsert line = some (tb, cp, vp)) :
    ((assocFind cfg.tables tb).isSome = true → resolveTableKey cfg tb = some tb) ∧
      (assocFind cfg.tables tb = none →
        ∀ seg, lastSegment tb = some seg →
          ((assocFind cfg.tables seg).isSome = true →
            resolveTableKey cfg tb = some seg) ∧
          (assocFind cfg.tables seg = none →
            process_line env t cfg line = some (line, false))) := by
  constructor
  · intro hsome
    rw [resolveTableKey, if_pos hsome]
  · intro hnone seg hseg
    have hres : ∀ (hs : assocFind cfg.tables seg = none),
        resolveTableKey cfg tb = none := by
      intro hs
      rw [resolveTableKey, if_neg (by rw [hnone]; simp), hseg]
      simp only []
      rw [if_neg (by rw [hs]; simp)]
    constructor
    · intro hsome2
      rw [resolveTableKey, if_neg (by rw [hnone]; simp), hseg]
      simp only []
      rw [if_pos hsome2]
    · intro hs
      rw [process_line, h]
      simp only []
      rw [hres hs]

/-- Claim C9 witness: a matched line whose schema qualified table resolves
under neither tier passes through byte identical. -/
theorem c9_witness :
    process_line testEnv ⟨42⟩ cfgT lineUntracked = some (lineUntracked, false) :=
  ((c9_two_tier_resolution testEnv ⟨42⟩ cfgT lineUntracked xyT aStr oneStr
      (by decide)).2 (by decide) xyLast (by decide)).2 (by decide)

/-- Claim C10: on a matched, tracked, count aligned line whose transforms
all return, the emitted line is exactly the reassembled text with
normalized keywords and spacing, the captured table and column fragments
verbatim, and the substitutes joined by comma and space, with the
anonymized flag set; and on an all Keep lower case line the output differs
from the input byte wise while the flag is still set. -/
theorem c10_reassembly :
    (∀ (env : FakerEnv) (t : Transformer) (cfg : AppConfig)
        (line tb cp vp key : String) (tc : TableConfig) (ns : List String),
        matchInsert line = some (tb, cp, vp) →
        resolveTableKey cfg tb = some key →
        assocFind cfg.tables key = some tc →
        (parseColumns cp).length = (Transformer.parse_values vp).length →
        substitutes env t tc (parseColumns cp) (Transformer.parse_values vp) =
          some ns →
        process_line env t cfg line =
          some (insFront ++ tb ++ parOpen ++ cp ++ valsOpen ++
            String.intercalate comsp ns ++ parClose, true)) ∧
      process_line testEnv ⟨42⟩ cfgT lineLower = some (lineTrailOut, true) ∧
      lineTrailOut ≠ lineLower := by
  refine ⟨?_, by decide, by decide⟩
  intro env t cfg line tb cp vp key tc ns h1 h2 h3 h4 h5
  rw [process_line, h1]
  simp only []
  rw [h2]
  simp only []
  rw [h3]
  simp only []
  rw [if_neg (show ¬((parseColumns cp).length ≠ (Transformer.parse_values vp).length)
    from fun hne => hne h4), h5]

/-- Claim C10 witness: a spaced concrete line is reassembled into the
normalized output with its single substitute. -/
theorem c10_witness :
    process_line testEnv ⟨42⟩ cfgT lineSpaced =
      some (insFront ++ tStr ++ parOpen ++ aStr ++ valsOpen ++
        String.intercalate comsp [oneStr] ++ parClose, true) :=
  c10_reassembly.1 testEnv ⟨42⟩ cfgT lineSpaced tStr aStr sp1sp tStr tcEmpty
    [oneStr] (by decide) (by decide) (by decide) (by decide) (by decide)

end GhostDB
